import Mathlib

/-!
Verification of the `circulis` container (`library/circulis.py`).

The Python class `circulis` wraps a deque (`self.circulist`) together with a
display name (`self.name`).  Each operation below is shallowly embedded as a
pure Lean function over `List Elem` (or a numeric `List ℚ` for the percentile
search).  Python exceptions are modelled by the `PErr` type and `Except` /
`Option PErr` results; in-place mutation is modelled by returning the new
contents of the backing deque.  Machine floats in the source only appear as
the percentile argument and the `0.01` sentinel, both exactly representable;
they are embedded as rationals.
-/

namespace Circ

/-- Python exception kinds raised by `circulis` operations.
`invalidOperation` stands for `ValueError`, `typeMismatch` for `TypeError`,
`indexOutOfRange` for `IndexError`; `recursionError` models Python's
`RecursionError` (unbounded recursion), `notImplemented` models the
`NotImplementedError` in the percentile comparison, and `fuelExhausted` is
the marker used by the fuel-indexed embedding of the percentile `while`
loop (proved unreachable). -/
inductive PErr where
  | invalidOperation
  | typeMismatch
  | indexOutOfRange
  | recursionError
  | notImplemented
  | fuelExhausted
deriving DecidableEq, Repr

/-- Elements stored in a circulist: numbers (Python `int`/`float`, embedded
as rationals), strings, `None`, lists and tuples (both possibly nested). -/
inductive Elem where
  | num : ℚ → Elem
  | str : String → Elem
  | none : Elem
  | list : List Elem → Elem
  | tup : List Elem → Elem

mutual

def Elem.beq : Elem → Elem → Bool
  | .num a, .num b => a == b
  | .str a, .str b => a == b
  | .none, .none => true
  | .list a, .list b => Elem.beqList a b
  | .tup a, .tup b => Elem.beqList a b
  | _, _ => false

def Elem.beqList : List Elem → List Elem → Bool
  | [], [] => true
  | x :: xs, y :: ys => Elem.beq x y && Elem.beqList xs ys
  | _, _ => false

end

mutual

theorem Elem.eq_of_beq : (a b : Elem) → Elem.beq a b = true → a = b
  | .num a, .num b, h => by simp only [Elem.beq, beq_iff_eq] at h; rw [h]
  | .str a, .str b, h => by simp only [Elem.beq, beq_iff_eq] at h; rw [h]
  | .none, .none, _ => rfl
  | .list a, .list b, h => by
      rw [Elem.eqList_of_beqList a b (by simpa [Elem.beq] using h)]
  | .tup a, .tup b, h => by
      rw [Elem.eqList_of_beqList a b (by simpa [Elem.beq] using h)]
  | .num _, .str _, h => by simp [Elem.beq] at h
  | .num _, .none, h => by simp [Elem.beq] at h
  | .num _, .list _, h => by simp [Elem.beq] at h
  | .num _, .tup _, h => by simp [Elem.beq] at h
  | .str _, .num _, h => by simp [Elem.beq] at h
  | .str _, .none, h => by simp [Elem.beq] at h
  | .str _, .list _, h => by simp [Elem.beq] at h
  | .str _, .tup _, h => by simp [Elem.beq] at h
  | .none, .num _, h => by simp [Elem.beq] at h
  | .none, .str _, h => by simp [Elem.beq] at h
  | .none, .list _, h => by simp [Elem.beq] at h
  | .none, .tup _, h => by simp [Elem.beq] at h
  | .list _, .num _, h => by simp [Elem.beq] at h
  | .list _, .str _, h => by simp [Elem.beq] at h
  | .list _, .none, h => by simp [Elem.beq] at h
  | .list _, .tup _, h => by simp [Elem.beq] at h
  | .tup _, .num _, h => by simp [Elem.beq] at h
  | .tup _, .str _, h => by simp [Elem.beq] at h
  | .tup _, .none, h => by simp [Elem.beq] at h
  | .tup _, .list _, h => by simp [Elem.beq] at h

theorem Elem.eqList_of_beqList : (as bs : List Elem) → Elem.beqList as bs = true → as = bs
  | [], [], _ => rfl
  | x :: xs, y :: ys, h => by
      simp only [Elem.beqList, Bool.and_eq_true] at h
      rw [Elem.eq_of_beq x y h.1, Elem.eqList_of_beqList xs ys h.2]
  | [], _ :: _, h => by simp [Elem.beqList] at h
  | _ :: _, [], h => by simp [Elem.beqList] at h

end

mutual

theorem Elem.beq_refl : (a : Elem) → Elem.beq a a = true
  | .num a => by simp [Elem.beq]
  | .str a => by simp [Elem.beq]
  | .none => rfl
  | .list a => by simpa [Elem.beq] using Elem.beqList_refl a
  | .tup a => by simpa [Elem.beq] using Elem.beqList_refl a

theorem Elem.beqList_refl : (as : List Elem) → Elem.beqList as as = true
  | [] => rfl
  | x :: xs => by simp [Elem.beqList, Elem.beq_refl x, Elem.beqList_refl xs]

end

instance : DecidableEq Elem := fun a b =>
  decidable_of_iff (Elem.beq a b = true)
    ⟨Elem.eq_of_beq a b, fun h => h ▸ Elem.beq_refl a⟩

/-- The `circulis` object state: `self.name` and the backing deque
`self.circulist`. -/
structure Circulis where
  name : String
  circulist : List Elem
deriving DecidableEq

/-! ## Python primitives -/

/-- Python index resolution for a sequence of length `n`: a negative index
counts from the tail; an index still out of bounds is an `IndexError`
(`Option.none`). -/
def pyIdx (n : ℕ) (i : ℤ) : Option ℕ :=
  if i < 0 then
    if 0 ≤ i + n ∧ i + n < n then some (i + n).toNat else Option.none
  else
    if 0 ≤ i ∧ i < n then some i.toNat else Option.none

/-- Python `del seq[i]` (as in `del self.circulist[index - index_fixer]`):
resolve the possibly-negative index, then delete; out of bounds is an
`IndexError`. -/
def pyDelAt (l : List α) (i : ℤ) : Option (List α) :=
  (pyIdx l.length i).map fun j => l.eraseIdx j

/-- Length of Python `range(a, b, s)` for `s ≠ 0`. -/
def pyRangeLen (a b s : ℤ) : ℕ :=
  if 0 < s then (max 0 ((b - a + s - 1) / s)).toNat
  else (max 0 ((a - b + (-s) - 1) / (-s))).toNat

/-- Python `range(a, b, s)` as a list, for `s ≠ 0` (Python raises
`ValueError` on `s = 0`; callers model that check separately). -/
def pyRange (a b s : ℤ) : List ℤ :=
  (List.range (pyRangeLen a b s)).map fun k : ℕ => a + (k : ℤ) * s

/-! ## `circulis.remove` -/

/-- The deletion pass of `circulis.remove`: for each scheduled index `i`
(in order) run `del self.circulist[i - index_fixer]` and bump the fixer.
Returns the state reached so far together with the error, if any deletion
raised `IndexError`. -/
def removeLoop (l : List α) (sched : List ℤ) (k : ℤ) : Option PErr × List α :=
  match sched with
  | [] => (Option.none, l)
  | i :: is =>
    match pyDelAt l (i - k) with
    | Option.none => (some PErr.indexOutOfRange, l)
    | some l' => removeLoop l' is (k + 1)

/-- `circulis.remove(start, stop=None, step=1)`.  Validation in source
order: empty-container check (`ValueError`), `stop` defaulting, negative
warning (no state effect), `isinstance` checks (discharged by typing),
bounds check `start/stop/step >= len` (`IndexError`); then the per-index
deletion loop over `range(start, stop + 1, step)`.  Python's `range`
raises `ValueError` on a zero step at the first iteration, before any
deletion. -/
def circRemove (l : List α) (start : ℤ) (stop? : Option ℤ) (step : ℤ) :
    Option PErr × List α :=
  if l.isEmpty then (some PErr.invalidOperation, l)
  else
    let stop := stop?.getD start
    if start ≥ l.length ∨ stop ≥ l.length ∨ step ≥ l.length then
      (some PErr.indexOutOfRange, l)
    else if step = 0 then (some PErr.invalidOperation, l)
    else removeLoop l (pyRange start (stop + 1) step) 0

/-- Keep the elements of `l` whose position satisfies `q` (the reference
"delete exactly the scheduled positions" description). -/
def idxFilter : List α → (ℕ → Bool) → List α
  | [], _ => []
  | a :: as, q => (if q 0 then [a] else []) ++ idxFilter as (fun i => q (i + 1))

theorem idxFilter_congr (xs : List α) (q q' : ℕ → Bool)
    (h : ∀ j, j < xs.length → q j = q' j) : idxFilter xs q = idxFilter xs q' := by
  induction xs generalizing q q' with
  | nil => rfl
  | cons a as ih =>
    have h0 : q 0 = q' 0 := h 0 (by simp)
    have hrest : ∀ j, j < as.length → q (j + 1) = q' (j + 1) := fun j hj =>
      h (j + 1) (by simp only [List.length_cons]; omega)
    simp only [idxFilter, h0, ih (fun j => q (j + 1)) (fun j => q' (j + 1)) hrest]

theorem idxFilter_all_true (xs : List α) (q : ℕ → Bool)
    (h : ∀ j, j < xs.length → q j = true) : idxFilter xs q = xs := by
  induction xs generalizing q with
  | nil => rfl
  | cons a as ih =>
    have h0 : q 0 = true := h 0 (by simp)
    have hrest : ∀ j, j < as.length → q (j + 1) = true := fun j hj =>
      h (j + 1) (by simp only [List.length_cons]; omega)
    simp [idxFilter, h0, ih (fun j => q (j + 1)) hrest]

theorem idxFilter_append (xs ys : List α) (q : ℕ → Bool) :
    idxFilter (xs ++ ys) q =
      idxFilter xs q ++ idxFilter ys (fun j => q (j + xs.length)) := by
  induction xs generalizing q with
  | nil => simp [idxFilter]
  | cons a as ih =>
    show (if q 0 = true then [a] else []) ++ idxFilter (as ++ ys) (fun i => q (i + 1)) =
      ((if q 0 = true then [a] else []) ++ idxFilter as (fun i => q (i + 1))) ++
        idxFilter ys (fun j => q (j + (as.length + 1)))
    rw [ih (fun i => q (i + 1)), List.append_assoc,
      idxFilter_congr ys _ _ (fun j _ => show q (j + as.length + 1) = q (j + (as.length + 1))
        from by rw [Nat.add_assoc])]

/-- The deletion pass on a strictly increasing schedule of indices that are
in bounds after correction removes exactly the elements whose current
position `j` satisfies `j + k ∈ schedule`: the `index_fixer` offset makes
the `m`-th scheduled original index hit the right shifted position. -/
theorem removeLoop_sorted [DecidableEq α] (is : List ℤ) (l : List α) (k : ℤ)
    (hs : is.Pairwise (· < ·))
    (hb : ∀ i ∈ is, k ≤ i ∧ i - k < l.length) :
    removeLoop l is k =
      (Option.none, idxFilter l (fun j => !decide ((j : ℤ) + k ∈ is))) := by
  induction is generalizing l k with
  | nil =>
    simp only [removeLoop, List.not_mem_nil, decide_False, Bool.not_false]
    rw [idxFilter_all_true _ _ (fun _ _ => rfl)]
  | cons i is ih =>
    obtain ⟨hki, hil⟩ := hb i (List.mem_cons_self i is)
    have hm : (i - k).toNat < l.length := by omega
    have hmk : ((i - k).toNat : ℤ) = i - k := by omega
    set m := (i - k).toNat with hmdef
    have hdel : pyDelAt l (i - k) = some (l.eraseIdx m) := by
      simp only [pyDelAt, pyIdx]
      rw [if_neg (by omega), if_pos (by constructor <;> omega)]
      simp only [Option.map_some']
    have htail : ∀ i' ∈ is, i < i' := (List.pairwise_cons.mp hs).1
    have hstep : removeLoop l (i :: is) k = removeLoop (l.eraseIdx m) is (k + 1) := by
      simp [removeLoop, hdel]
    have hbounds : ∀ i' ∈ is, k + 1 ≤ i' ∧ i' - (k + 1) < (l.eraseIdx m).length := by
      intro i' hi'
      have := (hb i' (List.mem_cons_of_mem i hi')).2
      have := htail i' hi'
      have := (hb i' (List.mem_cons_of_mem i hi')).1
      rw [List.length_eraseIdx_of_lt hm]
      constructor <;> omega
    rw [hstep, ih (l.eraseIdx m) (k + 1) (List.pairwise_cons.mp hs).2 hbounds]
    congr 1
    -- the filtered lists agree
    have hsplit : l = l.take m ++ l[m] :: l.drop (m + 1) := by
      rw [List.getElem_cons_drop, List.take_append_drop]
    have htake : (l.take m).length = m := by
      rw [List.length_take, Nat.min_eq_left hm.le]
    rw [List.eraseIdx_eq_take_drop_succ, idxFilter_append, htake]
    conv_rhs => rw [hsplit]
    rw [idxFilter_append, htake]
    have htakeL :
        idxFilter (l.take m) (fun j => !decide ((j : ℤ) + (k + 1) ∈ is)) = l.take m := by
      apply idxFilter_all_true
      intro j hj
      rw [htake] at hj
      have h2 : ¬((j : ℤ) + (k + 1) ∈ is) := by
        intro hmem
        have := htail _ hmem; omega
      simp [h2]
    have htakeR :
        idxFilter (l.take m) (fun j => !decide ((j : ℤ) + k ∈ i :: is)) = l.take m := by
      apply idxFilter_all_true
      intro j hj
      rw [htake] at hj
      have h1 : ¬((j : ℤ) + k ∈ i :: is) := by
        intro hmem
        rcases List.mem_cons.mp hmem with h | h
        · omega
        · have := htail _ h; omega
      simp [h1]
    rw [htakeL, htakeR]
    congr 1
    simp only [idxFilter]
    have hhead : decide (((0 + m : ℕ) : ℤ) + k ∈ i :: is) = true := by
      apply decide_eq_true
      rw [List.mem_cons]
      left
      omega
    rw [if_neg (by rw [hhead]; simp)]
    simp only [List.nil_append]
    apply idxFilter_congr
    intro j _
    show (!decide (((j + m : ℕ) : ℤ) + (k + 1) ∈ is)) =
      (!decide (((j + 1 + m : ℕ) : ℤ) + k ∈ i :: is))
    apply congrArg
    apply (decide_eq_decide).mpr
    have hval : ((j + 1 + m : ℕ) : ℤ) + k = ((j + m : ℕ) : ℤ) + (k + 1) := by
      push_cast; ring
    rw [hval, List.mem_cons]
    constructor
    · intro h; exact Or.inr h
    · rintro (h | h)
      · exfalso; omega
      · exact h

/-- For a positive step, membership below the computed Python `range`
length is exactly "the scheduled value is below the upper bound". -/
theorem lt_pyRangeLen {a b s : ℤ} (hs : 0 < s) (m : ℕ) :
    m < pyRangeLen a b s ↔ a + m * s < b := by
  unfold pyRangeLen
  rw [if_pos hs]
  have h1 : ((m : ℤ) < max 0 ((b - a + s - 1) / s)) ↔ ((m : ℤ) < (b - a + s - 1) / s) := by
    rw [lt_max_iff]
    constructor
    · rintro (h | h)
      · omega
      · exact h
    · exact Or.inr
  rw [Int.lt_toNat, h1]
  have h2 : ((m : ℤ) < (b - a + s - 1) / s) ↔ ((m : ℤ) + 1 ≤ (b - a + s - 1) / s) := by
    omega
  rw [h2, Int.le_ediv_iff_mul_le hs]
  have h3 : ((m : ℤ) + 1) * s = m * s + s := by ring
  rw [h3]
  omega

/-- Membership in the embedded Python `range(a, b, s)`, positive step. -/
theorem mem_pyRange {a b s : ℤ} (hs : 0 < s) (j : ℤ) :
    j ∈ pyRange a b s ↔ ∃ m : ℕ, j = a + m * s ∧ j < b := by
  unfold pyRange
  rw [List.mem_map]
  constructor
  · rintro ⟨m, hm, rfl⟩
    rw [List.mem_range] at hm
    exact ⟨m, rfl, (lt_pyRangeLen hs m).mp hm⟩
  · rintro ⟨m, rfl, hlt⟩
    exact ⟨m, List.mem_range.mpr ((lt_pyRangeLen hs m).mpr hlt), rfl⟩

/-- The embedded Python `range` with positive step is strictly increasing. -/
theorem pyRange_pairwise {a b s : ℤ} (hs : 0 < s) :
    (pyRange a b s).Pairwise (· < ·) := by
  show ((List.range (pyRangeLen a b s)).map fun k : ℕ => a + k * s).Pairwise (· < ·)
  refine List.Pairwise.map _ ?_ (List.pairwise_lt_range _)
  intro x y hxy
  have h1 : (x : ℤ) < y := by exact_mod_cast hxy
  have h2 := mul_lt_mul_of_pos_right h1 hs
  omega

/-- C1 (amended: the step must additionally be at least 1; with `step = 0`
the call fails because Python's `range` rejects a zero step).  For every
non-empty container and `0 ≤ start, stop < length`, `1 ≤ step < length`,
`remove(start, stop, step)` succeeds and deletes exactly the elements at
the scheduled positions `start, start + step, …, stop` (inclusive), the
running `index_fixer` offset compensating for the leftward shift of each
deletion; `remove(1, 3)` on `[10, 20, 30, 40, 50]` leaves `[10, 50]`. -/
theorem c1_remove_deletes_scheduled_positions {α : Type} [DecidableEq α] (l : List α)
    (start stop step : ℤ)
    (h1 : 0 ≤ start ∧ start < (l.length : ℤ))
    (h2 : 0 ≤ stop ∧ stop < (l.length : ℤ))
    (h3 : 1 ≤ step ∧ step < (l.length : ℤ)) :
    circRemove l start (some stop) step =
      (Option.none,
        idxFilter l (fun j => !decide ((j : ℤ) ∈ pyRange start (stop + 1) step))) ∧
    (∀ j : ℤ, j ∈ pyRange start (stop + 1) step ↔
      ∃ m : ℕ, j = start + m * step ∧ j ≤ stop) := by
  have hs : 0 < step := by omega
  have hmem : ∀ j : ℤ, j ∈ pyRange start (stop + 1) step ↔
      ∃ m : ℕ, j = start + m * step ∧ j ≤ stop := by
    intro j
    rw [mem_pyRange hs]
    constructor
    · rintro ⟨m, rfl, hlt⟩
      exact ⟨m, rfl, by omega⟩
    · rintro ⟨m, rfl, hle⟩
      exact ⟨m, rfl, by omega⟩
  refine ⟨?_, hmem⟩
  have hne : l.isEmpty = false := by
    cases l with
    | nil => simp only [List.length_nil, Nat.cast_zero] at h1; omega
    | cons a as => rfl
  unfold circRemove
  rw [hne]
  simp only [Bool.false_eq_true, if_false, Option.getD_some]
  rw [if_neg (by push_neg; refine ⟨by omega, by omega, by omega⟩), if_neg (by omega)]
  have hbnd : ∀ i ∈ pyRange start (stop + 1) step, (0 : ℤ) ≤ i ∧ i - 0 < (l.length : ℤ) := by
    intro i hi
    obtain ⟨m, rfl, hle⟩ := (hmem i).mp hi
    have hnn : 0 ≤ (m : ℤ) * step := mul_nonneg (by positivity) (by omega)
    constructor <;> omega
  rw [removeLoop_sorted _ _ _ (pyRange_pairwise hs) hbnd]
  congr 1

/-- C1 counterexample: on the one-element container `[10]` the arguments
`start = stop = step = 0` satisfy the claim's bounds `0 ≤ start, stop,
step < length`, yet the call fails (Python's `range` raises `ValueError`
on a zero step) instead of deleting position `0`. -/
theorem c1_remove_counterexample :
    circRemove ([10] : List ℤ) 0 (some 0) 0 = (some PErr.invalidOperation, [10]) ∧
    (some PErr.invalidOperation ≠ (Option.none : Option PErr)) := by
  constructor
  · decide
  · decide

/-! ## `circulis.insert` and state preservation on failure -/

/-- Python `seq.insert(i, x)` (list/deque semantics): a negative index
counts from the tail and is clamped at the left end, an index past the
end appends; insertion itself never raises. -/
def pyInsertIdx (l : List α) (i : ℤ) (x : α) : List α :=
  let n : ℤ := l.length
  let j : ℤ := if i < 0 then max 0 (i + n) else min i n
  List.insertIdx j.toNat x l

/-- `circulis.insert(item, start, stop=None, step=1)`: empty-container
check (`ValueError`), `stop` defaulting, type checks (static), negative
warning (no state effect), `stop += 1`, then
`for index in range(start, stop, step): self.circulist.insert(index, item)`.
A zero step makes `range` raise `ValueError` before the first insertion. -/
def circInsert (l : List α) (item : α) (start : ℤ) (stop? : Option ℤ) (step : ℤ) :
    Option PErr × List α :=
  if l.isEmpty then (some PErr.invalidOperation, l)
  else
    let stop := stop?.getD start
    if step = 0 then (some PErr.invalidOperation, l)
    else
      (Option.none,
        (pyRange start (stop + 1) step).foldl (fun acc i => pyInsertIdx acc i item) l)

/-- `circulis.remove` acting on the whole object: the backing deque is
replaced by the loop's final state; `self.name` is never written. -/
def circulisRemove (c : Circulis) (start : ℤ) (stop? : Option ℤ) (step : ℤ) :
    Option PErr × Circulis :=
  let r := circRemove c.circulist start stop? step
  (r.1, { c with circulist := r.2 })

/-- `circulis.insert` acting on the whole object. -/
def circulisInsert (c : Circulis) (item : Elem) (start : ℤ) (stop? : Option ℤ) (step : ℤ) :
    Option PErr × Circulis :=
  let r := circInsert c.circulist item start stop? step
  (r.1, { c with circulist := r.2 })

example :
    circInsert ([1, 2, 3, 4, 5] : List ℤ) 0 1 (some 3) 1 =
      (Option.none, [1, 0, 0, 0, 2, 3, 4, 5]) := by
  decide

/-- C6 (amended): for `remove` and `insert`, every failure raised by the
upfront validation — the empty-container `InvalidOperation`, the bounds
`IndexOutOfRange` of `remove`, and the zero-step `InvalidOperation` from
`range` — leaves the element sequence and the name exactly as they were,
and `insert` can fail in no other way; but `remove` called with negative
arguments may fail with `IndexOutOfRange` in the middle of its deletion
pass, after some deletions have already been applied, so the original
claim's inclusion of arbitrary negative arguments is wrong.  The name is
never modified by either operation, even on a mid-pass failure. -/
theorem c6_validation_failure_preserves_state (c : Circulis) (item : Elem)
    (start stop step : ℤ) :
    (c.circulist = [] →
      circulisRemove c start (some stop) step = (some PErr.invalidOperation, c)) ∧
    (c.circulist ≠ [] →
      (start ≥ (c.circulist.length : ℤ) ∨ stop ≥ (c.circulist.length : ℤ) ∨
        step ≥ (c.circulist.length : ℤ)) →
      circulisRemove c start (some stop) step = (some PErr.indexOutOfRange, c)) ∧
    (c.circulist ≠ [] →
      ¬(start ≥ (c.circulist.length : ℤ) ∨ stop ≥ (c.circulist.length : ℤ) ∨
        step ≥ (c.circulist.length : ℤ)) →
      step = 0 →
      circulisRemove c start (some stop) step = (some PErr.invalidOperation, c)) ∧
    (c.circulist = [] →
      circulisInsert c item start (some stop) step = (some PErr.invalidOperation, c)) ∧
    (c.circulist ≠ [] → step = 0 →
      circulisInsert c item start (some stop) step = (some PErr.invalidOperation, c)) ∧
    (c.circulist ≠ [] → step ≠ 0 →
      (circulisInsert c item start (some stop) step).1 = Option.none) ∧
    ((circulisRemove c start (some stop) step).2.name = c.name ∧
      (circulisInsert c item start (some stop) step).2.name = c.name) := by
  obtain ⟨nm, l⟩ := c
  refine ⟨?_, ?_, ?_, ?_, ?_, ?_, rfl, rfl⟩
  · intro h
    simp only at h
    subst h
    rfl
  · intro hne hb
    have he : l.isEmpty = false := by
      cases l with
      | nil => exact absurd rfl hne
      | cons a as => rfl
    simp only [circulisRemove, circRemove, he, Bool.false_eq_true, if_false,
      Option.getD_some, if_pos hb]
  · intro hne hb h0
    have he : l.isEmpty = false := by
      cases l with
      | nil => exact absurd rfl hne
      | cons a as => rfl
    simp only [circulisRemove, circRemove, he, Bool.false_eq_true, if_false,
      Option.getD_some, if_neg hb, if_pos h0]
  · intro h
    simp only at h
    subst h
    rfl
  · intro hne h0
    have he : l.isEmpty = false := by
      cases l with
      | nil => exact absurd rfl hne
      | cons a as => rfl
    simp only [circulisInsert, circInsert, he, Bool.false_eq_true, if_false,
      Option.getD_some, if_pos h0]
  · intro hne h0
    have he : l.isEmpty = false := by
      cases l with
      | nil => exact absurd rfl hne
      | cons a as => rfl
    simp only [circulisInsert, circInsert, he, Bool.false_eq_true, if_false,
      Option.getD_some, if_neg h0]

/-- C6 counterexample: `remove(-1, 2)` on a container holding
`[10, 20, 30]` passes every upfront check (negative indices only log a
warning), deletes all three elements during the pass, and then fails with
`IndexError` — so a failing call can leave the container modified
(here: emptied). -/
theorem c6_counterexample :
    circulisRemove ⟨"c", [Elem.num 10, Elem.num 20, Elem.num 30]⟩ (-1) (some 2) 1 =
      (some PErr.indexOutOfRange, ⟨"c", []⟩) ∧
    ([] : List Elem) ≠ [Elem.num 10, Elem.num 20, Elem.num 30] := by
  constructor
  · decide
  · decide

/-- C6 witness: on the empty container the upfront `remove` validation
fails and the state is returned untouched. -/
theorem c6_witness :
    circulisRemove ⟨"w", []⟩ 0 (some 0) 1 =
      (some PErr.invalidOperation, (⟨"w", []⟩ : Circulis)) :=
  (c6_validation_failure_preserves_state ⟨"w", []⟩ Elem.none 0 0 1).1 rfl

/-- C1 witness: the spec's worked example, `remove(1, 3)` on
`[10, 20, 30, 40, 50]`, evaluates to `[10, 50]`. -/
theorem c1_remove_witness :
    circRemove ([10, 20, 30, 40, 50] : List ℤ) 1 (some 3) 1 =
      (Option.none, idxFilter ([10, 20, 30, 40, 50] : List ℤ)
        (fun j => !decide ((j : ℤ) ∈ pyRange 1 (3 + 1) 1))) ∧
    idxFilter ([10, 20, 30, 40, 50] : List ℤ)
      (fun j => !decide ((j : ℤ) ∈ pyRange 1 (3 + 1) 1)) = [10, 50] :=
  ⟨(c1_remove_deletes_scheduled_positions [10, 20, 30, 40, 50] 1 3 1
      (by constructor <;> decide) (by constructor <;> decide)
      (by constructor <;> decide)).1,
    by decide⟩

example :
    circRemove [10, 20, 30, 40, 50] 0 (some 4) 2 = (Option.none, ([20, 40] : List ℤ)) := by
  decide

example :
    circRemove [10, 20, 30] (-1) (some 2) 1 = (some PErr.indexOutOfRange, ([] : List ℤ)) := by
  decide

example :
    circRemove [10] 0 Option.none 0 = (some PErr.invalidOperation, ([10] : List ℤ)) := by
  decide

example :
    circRemove [10, 20] 1 (some 1) 0 = (some PErr.invalidOperation, ([10, 20] : List ℤ)) := by
  decide

/-! ## `circulis.sum` -/

/-- Whether a Python `+=` of this element onto a numeric accumulator
succeeds: only numbers add; strings, `None`, lists and tuples raise
`TypeError` against a numeric left operand. -/
def isNum : Elem → Bool
  | .num _ => true
  | _ => false

/-- Numeric value of an element (`0` on non-numbers; only ever used under
an `isNum` guard). -/
def numVal : Elem → ℚ
  | .num q => q
  | _ => 0

/-- The `error` keyword argument of `circulis.sum`. -/
inductive SumPolicy where
  | raiseP
  | coerce
  | terminate
deriving DecidableEq

/-- The `error="terminate"` loop of `circulis.sum`: add elements until the
first one whose `+=` raises `TypeError`, then return the accumulator. -/
def sumTerminate (acc : ℚ) : List Elem → ℚ
  | [] => acc
  | e :: es => if isNum e then sumTerminate (acc + numVal e) es else acc

/-- `circulis.sum(start=0, error="raise")`.  The empty-container check
runs first and returns `0` (the literal `0`, not `start`).  `raise` wraps
the built-in `sum`, which fails on the first non-numeric element (the
`TypeError` is re-raised as `ValueError`); `coerce` attempts `+=` per
element and skips elements that raise; `terminate` returns the
accumulator at the first element that raises. -/
def circSum (l : List Elem) (start : ℚ) (pol : SumPolicy) : Except PErr ℚ :=
  if l.isEmpty then .ok 0
  else
    match pol with
    | .raiseP =>
      if l.all isNum then .ok (start + (l.map numVal).sum)
      else .error PErr.invalidOperation
    | .coerce => .ok (l.foldl (fun acc e => if isNum e then acc + numVal e else acc) start)
    | .terminate => .ok (sumTerminate start l)

theorem coerce_foldl_eq (l : List Elem) (start : ℚ) :
    l.foldl (fun acc e => if isNum e then acc + numVal e else acc) start =
      start + ((l.filter isNum).map numVal).sum := by
  induction l generalizing start with
  | nil => simp
  | cons e es ih =>
    by_cases h : isNum e
    · simp only [List.foldl_cons, h, if_true, ih, List.filter_cons_of_pos h,
        List.map_cons, List.sum_cons]
      ring
    · simp only [List.foldl_cons, h, Bool.false_eq_true, if_false, ih,
        List.filter_cons_of_neg (by simpa using h)]

theorem sumTerminate_eq (l : List Elem) (start : ℚ) :
    sumTerminate start l = start + ((l.takeWhile isNum).map numVal).sum := by
  induction l generalizing start with
  | nil => simp [sumTerminate]
  | cons e es ih =>
    by_cases h : isNum e
    · simp only [sumTerminate, h, if_true, ih, List.takeWhile_cons_of_pos h,
        List.map_cons, List.sum_cons]
      ring
    · simp only [sumTerminate, h, Bool.false_eq_true, if_false,
        List.takeWhile_cons_of_neg (by simpa using h), List.map_nil,
        List.sum_nil, add_zero]

/-- C2: `sum` follows its error policy.  With `raise`, a non-empty
container containing any non-numeric element fails with
`InvalidOperation`, and an all-numeric one returns `start` plus the total;
with `coerce`, non-numeric elements are skipped and the numeric elements
plus `start` are returned; with `terminate`, summation stops at the first
non-numeric element, returning `start` plus the numeric prefix; an empty
container returns `0` under every policy without failing. -/
theorem c2_sum_policies (l : List Elem) (start : ℚ) :
    (l ≠ [] → (∃ e ∈ l, isNum e = false) →
      circSum l start SumPolicy.raiseP = .error PErr.invalidOperation) ∧
    (l ≠ [] → (∀ e ∈ l, isNum e = true) →
      circSum l start SumPolicy.raiseP = .ok (start + (l.map numVal).sum)) ∧
    (l ≠ [] →
      circSum l start SumPolicy.coerce =
        .ok (start + ((l.filter isNum).map numVal).sum)) ∧
    (l ≠ [] →
      circSum l start SumPolicy.terminate =
        .ok (start + ((l.takeWhile isNum).map numVal).sum)) ∧
    (l = [] → ∀ pol, circSum l start pol = .ok 0) := by
  have hne : l ≠ [] → l.isEmpty = false := by
    intro h
    cases l with
    | nil => exact absurd rfl h
    | cons a as => rfl
  refine ⟨?_, ?_, ?_, ?_, ?_⟩
  · intro h hex
    have hall : l.all isNum = false := by
      obtain ⟨e, he, hfalse⟩ := hex
      rw [Bool.eq_false_iff]
      intro hall
      rw [List.all_eq_true] at hall
      rw [hall e he] at hfalse
      exact Bool.noConfusion hfalse
    simp [circSum, hne h, hall]
  · intro h hall
    have hall' : l.all isNum = true := List.all_eq_true.mpr hall
    simp [circSum, hne h, hall']
  · intro h
    simp [circSum, hne h, coerce_foldl_eq]
  · intro h
    simp [circSum, hne h, sumTerminate_eq]
  · intro h
    subst h
    intro pol
    rfl

/-- C2 witness: on `[1, "x", 2]` with `start = 0`, `coerce` yields `3`,
`raise` fails with `InvalidOperation`, and `terminate` yields `1`; the
empty container yields `0`. -/
theorem c2_sum_witness :
    circSum [Elem.num 1, Elem.str "x", Elem.num 2] 0 SumPolicy.coerce = .ok 3 ∧
    circSum [Elem.num 1, Elem.str "x", Elem.num 2] 0 SumPolicy.raiseP =
      .error PErr.invalidOperation ∧
    circSum [Elem.num 1, Elem.str "x", Elem.num 2] 0 SumPolicy.terminate = .ok 1 ∧
    circSum [] 0 SumPolicy.raiseP = .ok 0 := by
  have h := c2_sum_policies [Elem.num 1, Elem.str "x", Elem.num 2] 0
  refine ⟨?_, ?_, ?_, ?_⟩
  · rw [h.2.2.1 (by decide)]
    norm_num [isNum, numVal, List.filter]
  · exact h.1 (by decide) ⟨Elem.str "x", by decide, by decide⟩
  · rw [h.2.2.2.1 (by decide)]
    norm_num [isNum, numVal, List.takeWhile]
  · exact (c2_sum_policies [] 0).2.2.2.2 rfl SumPolicy.raiseP

/-! ## `circulis.count` -/

/-- The guard of `circulis.count` is `if self.encrypt_is_empty:` — the
bound method object itself, not its call.  A bound method is always
truthy in Python, so the guard is a constant. -/
def isEmptyMethodTruthy : Bool := true

/-- `Counter(self.circulist)[item]`: occurrences of `item` in the deque,
as the never-reached second branch of `count` would compute them. -/
def counterCount (l : List Elem) (item : Elem) : ℕ := l.count item

/-- `circulis.count(item)`: the truthy-method guard selects the
`return 0` branch unconditionally. -/
def circCount (l : List Elem) (item : Elem) : ℕ :=
  if isEmptyMethodTruthy then 0 else counterCount l item

/-- C8: `count` returns `0` for every container (empty or not) and every
item, because the emptiness guard tests the truthiness of the bound
helper method instead of calling it, so the occurrences are never
counted. -/
theorem c8_count_always_zero : ∀ (l : List Elem) (item : Elem), circCount l item = 0 :=
  fun _ _ => rfl

/-! ## `circulis.pop` -/

/-- The `direction` argument of `circulis.pop`. -/
inductive Dir where
  | left
  | right
deriving DecidableEq

/-- Python `deque.pop()`: removes and returns the element at the RIGHT
end (`IndexError`, i.e. `Option.none`, when empty). -/
def dequePop (l : List α) : Option (α × List α) :=
  match l.getLast? with
  | Option.none => Option.none
  | some x => some (x, l.dropLast)

/-- Python `deque.popleft()`: removes and returns the element at the LEFT
end. -/
def dequePopleft (l : List α) : Option (α × List α) :=
  match l with
  | [] => Option.none
  | x :: xs => some (x, xs)

/-- `circulis.pop(direction="right")`: the `"left"` arm runs
`self.circulist.pop()` and the `"right"` arm runs
`self.circulist.popleft()`. -/
def circPop (l : List Elem) (direction : Dir) : Option (Elem × List Elem) :=
  match direction with
  | Dir.left => dequePop l
  | Dir.right => dequePopleft l

/-- C9: on a non-empty container, `pop("left")` removes and returns the
element at the right end and `pop("right")` removes and returns the
element at the left end — the mapping is the reverse of the argument's
name. -/
theorem c9_pop_directions_swapped (l : List Elem) (h : l ≠ []) :
    circPop l Dir.left = some (l.getLast h, l.dropLast) ∧
    circPop l Dir.right = some (l.head h, l.tail) := by
  cases l with
  | nil => exact absurd rfl h
  | cons x xs =>
    constructor
    · simp only [circPop, dequePop, List.getLast?_eq_getLast _ h]
    · simp only [circPop, dequePopleft, List.head_cons, List.tail_cons]

/-- C9 witness: popping `[1, 2, 3]` to the "left" yields the rightmost
element `3`, and to the "right" the leftmost element `1`. -/
theorem c9_pop_witness :
    circPop [Elem.num 1, Elem.num 2, Elem.num 3] Dir.left =
      some (Elem.num 3, [Elem.num 1, Elem.num 2]) ∧
    circPop [Elem.num 1, Elem.num 2, Elem.num 3] Dir.right =
      some (Elem.num 1, [Elem.num 2, Elem.num 3]) := by
  have h := c9_pop_directions_swapped [Elem.num 1, Elem.num 2, Elem.num 3]
    (by decide)
  exact ⟨h.1.trans (by decide), h.2.trans (by decide)⟩

/-! ## the `pair` property -/

/-- The chunking comprehension of `pair`:
`tuple(list(self.circulist)[index : index + 2])` for `index` in
`range(0, len, 2)`; a trailing odd chunk would yield a 1-tuple. -/
def chunk2 : List Elem → List Elem
  | [] => []
  | [x] => [Elem.tup [x]]
  | x :: y :: rest => Elem.tup [x, y] :: chunk2 rest

/-- The `pair` property: empty-container check (`ValueError`); then, when
the current length is odd, `self.circulist.append(None)` mutates the
deque before the chunking comprehension runs on the padded contents. -/
def circulisPair (c : Circulis) : Except PErr (List Elem) × Circulis :=
  if c.circulist.isEmpty then (.error PErr.invalidOperation, c)
  else
    let l := if c.circulist.length % 2 = 1 then c.circulist ++ [Elem.none] else c.circulist
    (.ok (chunk2 l), { c with circulist := l })

/-- C10: reading `pair` on an odd-length container appends a `None`
element to the container itself (its length grows by one and becomes
even); on an even-length container (the failing empty case included) the
container is left unchanged. -/
theorem c10_pair_mutates_odd (c : Circulis) :
    (c.circulist.length % 2 = 1 →
      (circulisPair c).2.circulist = c.circulist ++ [Elem.none] ∧
      (circulisPair c).2.circulist.length = c.circulist.length + 1 ∧
      (circulisPair c).2.circulist.length % 2 = 0) ∧
    (c.circulist.length % 2 = 0 → (circulisPair c).2 = c) := by
  obtain ⟨nm, l⟩ := c
  constructor
  · intro hodd
    simp only at hodd
    have hne : l.isEmpty = false := by
      cases l with
      | nil => simp at hodd
      | cons a as => rfl
    simp only [circulisPair, hne, Bool.false_eq_true, if_false, hodd, if_pos rfl]
    refine ⟨rfl, by simp, by simp; omega⟩
  · intro heven
    simp only at heven
    cases hl : l.isEmpty with
    | true => simp [circulisPair, hl]
    | false =>
      have hodd : ¬(l.length % 2 = 1) := by omega
      simp only [circulisPair, hl, Bool.false_eq_true, if_false, if_neg hodd]

/-- C10 witness: reading `pair` on the odd-length `[1, 2, 3]` leaves the
container as `[1, 2, 3, None]` (length 4, even). -/
theorem c10_pair_witness :
    (circulisPair ⟨"p", [Elem.num 1, Elem.num 2, Elem.num 3]⟩).2.circulist =
      [Elem.num 1, Elem.num 2, Elem.num 3] ++ [Elem.none] ∧
    (circulisPair ⟨"p", [Elem.num 1, Elem.num 2, Elem.num 3]⟩).2.circulist.length = 3 + 1 ∧
    (circulisPair ⟨"p", [Elem.num 1, Elem.num 2, Elem.num 3]⟩).2.circulist.length % 2 = 0 :=
  (c10_pair_mutates_odd ⟨"p", [Elem.num 1, Elem.num 2, Elem.num 3]⟩).1 (by decide)

/-! ## `circulis.shuffle` -/

/-- The tuple swap in `shuffle`
(`self.circulist[index], self.circulist[swap_index] = (...)`): both
right-hand reads happen before the two writes. -/
def swapL (l : List α) (i j : ℕ) : List α :=
  match l[i]?, l[j]? with
  | some a, some b => (l.set i b).set j a
  | _, _ => l

/-- One iteration of the `shuffle` loop at `index`: indices recorded in
`swapped_index` are skipped (`continue`); otherwise the chosen
`swap_index = randint(index, length - 1)` is appended to the record and
the two positions are exchanged. -/
def shuffleStep (chooser : ℕ → ℕ) (st : List α × List ℕ) (index : ℕ) :
    List α × List ℕ :=
  if st.2.contains index then st
  else (swapL st.1 index (chooser index), st.2 ++ [chooser index])

/-- `circulis.shuffle()` with the random draws supplied by `chooser`:
iterate `index` over `range(length)` threading the deque and the
`swapped_index` record. -/
def circShuffle (l : List α) (chooser : ℕ → ℕ) : List α :=
  ((List.range l.length).foldl (shuffleStep chooser) (l, [])).1

theorem swapL_perm [DecidableEq α] (l : List α) (i j : ℕ) : (swapL l i j).Perm l := by
  unfold swapL
  cases h1 : l[i]? with
  | none => exact List.Perm.refl l
  | some a =>
    cases h2 : l[j]? with
    | none => exact List.Perm.refl l
    | some b =>
      obtain ⟨hi, hia⟩ := List.getElem?_eq_some_iff.mp h1
      obtain ⟨hj, hjb⟩ := List.getElem?_eq_some_iff.mp h2
      apply List.perm_iff_count.mpr
      intro x
      have hcA : a = x → 0 < List.count x l := fun hx =>
        List.count_pos_iff.mpr ((hia.trans hx) ▸ List.getElem_mem hi)
      have hcB : b = x → 0 < List.count x l := fun hx =>
        List.count_pos_iff.mpr ((hjb.trans hx) ▸ List.getElem_mem hj)
      have hjlen : j < (l.set i b).length := by simpa using hj
      rw [List.count_set a x (l.set i b) j hjlen, List.count_set b x l i hi]
      by_cases hij : i = j
      · subst hij
        have hab : a = b := hia.symm.trans hjb
        subst hab
        simp only [List.getElem_set_self, hia, beq_iff_eq]
        by_cases hx : a = x
        · have := hcA hx
          simp only [if_pos hx]
          omega
        · simp only [if_neg hx]
          omega
      · simp only [List.getElem_set_of_ne hij, hia, hjb, beq_iff_eq]
        by_cases hax : a = x
        · have := hcA hax
          by_cases hbx : b = x
          · simp only [if_pos hax, if_pos hbx]
            omega
          · simp only [if_pos hax, if_neg hbx]
            omega
        · by_cases hbx : b = x
          · have := hcB hbx
            simp only [if_neg hax, if_pos hbx]
            omega
          · simp only [if_neg hax, if_neg hbx]
            omega

theorem foldl_shuffleStep_perm [DecidableEq α] (chooser : ℕ → ℕ) (idxs : List ℕ)
    (st : List α × List ℕ) :
    (idxs.foldl (shuffleStep chooser) st).1.Perm st.1 := by
  induction idxs generalizing st with
  | nil => exact List.Perm.refl _
  | cons i is ih =>
    rw [List.foldl_cons]
    refine (ih (shuffleStep chooser st i)).trans ?_
    unfold shuffleStep
    by_cases h : st.2.contains i
    · rw [if_pos h]
    · rw [if_neg h]
      exact swapL_perm st.1 i (chooser i)

/-- C7: for every container and every outcome of the random draws (any
`chooser` with `index ≤ chooser index < length` on the live range, as
`randint(index, length - 1)` guarantees), `shuffle` preserves the
multiset of elements: the result is a permutation of the input. -/
theorem c7_shuffle_preserves_multiset (l : List Elem) (chooser : ℕ → ℕ)
    (hc : ∀ i, i < l.length → i ≤ chooser i ∧ chooser i < l.length) :
    (circShuffle l chooser).Perm l :=
  foldl_shuffleStep_perm chooser (List.range l.length) (l, [])

/-- C7 witness: shuffling `[1, 2, 3]` with the draws `0 ↦ 2, 1 ↦ 1, 2 ↦ 2`
yields a permutation of `[1, 2, 3]` (concretely `[3, 2, 1]`). -/
theorem c7_shuffle_witness :
    (circShuffle [Elem.num 1, Elem.num 2, Elem.num 3]
      (fun i => if i = 0 then 2 else i)).Perm [Elem.num 1, Elem.num 2, Elem.num 3] ∧
    circShuffle [Elem.num 1, Elem.num 2, Elem.num 3]
      (fun i => if i = 0 then 2 else i) = [Elem.num 3, Elem.num 2, Elem.num 1] := by
  constructor
  · apply c7_shuffle_preserves_multiset
    intro i hi
    simp only [List.length_cons, List.length_nil] at hi
    interval_cases i <;> simp
  · decide

/-! ## `circulis.disentangle` -/

/-- One pass of `recursive_flatten` over the top-level deque.  The
branches of the source are inverted with respect to its docstring: an
item that is an `Iterable` and not a `str` (a list or tuple) is appended
to `store_list` unflattened, while every other item is itself passed to
`recursive_flatten`, which iterates it: a number or `None` is not
iterable and raises `TypeError`; a non-empty string recurses on its own
1-character strings without bound (Python `RecursionError`); an empty
string iterates zero times and contributes nothing. -/
def flattenPass : List Elem → Except PErr (List Elem)
  | [] => .ok []
  | Elem.list l :: xs => (flattenPass xs).map (fun r => Elem.list l :: r)
  | Elem.tup t :: xs => (flattenPass xs).map (fun r => Elem.tup t :: r)
  | Elem.str s :: xs =>
    if s.isEmpty then flattenPass xs else .error PErr.recursionError
  | Elem.num _ :: _ => .error PErr.typeMismatch
  | Elem.none :: _ => .error PErr.typeMismatch

/-- `circulis.disentangle()`: run `recursive_flatten(self.circulist)`;
the deque is cleared and refilled with `store_list` only if the pass
returns (an exception propagates before `clear`). -/
def circDisentangle (l : List Elem) : Except PErr (List Elem) := flattenPass l

/-- C3 (code bug): on the docstring's own example
`[1, [2, 3], [4, [5, 6]], 7]`, `disentangle` does not produce
`[1, 2, 3, 4, 5, 6, 7]` — it raises `TypeError` at the first element,
because the flatten recursion's branches are inverted (scalars are
iterated, nested iterables are appended whole). -/
theorem c3_disentangle_type_error :
    circDisentangle [Elem.num 1, Elem.list [Elem.num 2, Elem.num 3],
      Elem.list [Elem.num 4, Elem.list [Elem.num 5, Elem.num 6]], Elem.num 7] =
      .error PErr.typeMismatch ∧
    (∀ r : List Elem,
      Except.error PErr.typeMismatch ≠ (Except.ok r : Except PErr (List Elem))) :=
  ⟨rfl, fun _ h => Except.noConfusion h⟩

/-! ## set algebra: `_hashify`, `_to_set`, `__sub__` -/

mutual

/-- `circulis._hashify`: `isinstance(object, Hashable)` is a type-level
check, so numbers, strings, `None` and tuples (even tuples with
unhashable members) are returned unchanged; a list — iterable but not
`Hashable` — becomes a tuple of its recursively hashified members. -/
def hashify : Elem → Elem
  | Elem.num q => Elem.num q
  | Elem.str s => Elem.str s
  | Elem.none => Elem.none
  | Elem.tup t => Elem.tup t
  | Elem.list l => Elem.tup (hashifyList l)

def hashifyList : List Elem → List Elem
  | [] => []
  | e :: es => hashify e :: hashifyList es

end

mutual

/-- Whether Python `hash(x)` succeeds on the value: numbers, strings and
`None` hash; a tuple hashes iff all its members do; a list never does. -/
def deepHashable : Elem → Bool
  | Elem.num _ => true
  | Elem.str _ => true
  | Elem.none => true
  | Elem.tup t => deepHashableList t
  | Elem.list _ => false

def deepHashableList : List Elem → Bool
  | [] => true
  | e :: es => deepHashable e && deepHashableList es

end

/-- Python set construction from a list of keys: insertion keeps the
first occurrence of each key (iteration order of a set is unspecified;
this embedding fixes first-occurrence order, and the theorems only use
membership and distinctness). -/
def pyDedup [DecidableEq β] : List β → List β
  | [] => []
  | x :: xs => x :: (pyDedup xs).filter (fun y => y ≠ x)

/-- `circulis._to_set(object)`: `{self.encrypt_hashify(item) for item in
object}` — hashify every element, then hash-insert; an element whose
canonical key is not hashable raises `TypeError`. -/
def toSet (l : List Elem) : Except PErr (List Elem) :=
  if (l.map hashify).all deepHashable then .ok (pyDedup (l.map hashify))
  else .error PErr.typeMismatch

/-- `circulis.__sub__(other)`: validate the operand kind (static here),
build both canonical-key sets, and construct the new container from
`list(first - second)`. -/
def circSub (a b : List Elem) : Except PErr (List Elem) := do
  let first ← toSet a
  let second ← toSet b
  return first.filter (fun k => decide (k ∉ second))

theorem mem_pyDedup [DecidableEq β] (l : List β) (x : β) :
    x ∈ pyDedup l ↔ x ∈ l := by
  induction l with
  | nil => simp [pyDedup]
  | cons a as ih =>
    simp only [pyDedup, List.mem_cons, List.mem_filter]
    constructor
    · rintro (rfl | ⟨h, _⟩)
      · exact Or.inl rfl
      · exact Or.inr (ih.mp h)
    · rintro (rfl | h)
      · exact Or.inl rfl
      · by_cases hx : x = a
        · exact Or.inl hx
        · exact Or.inr ⟨ih.mpr h, by simpa using hx⟩

theorem nodup_pyDedup [DecidableEq β] (l : List β) : (pyDedup l).Nodup := by
  induction l with
  | nil => exact List.nodup_nil
  | cons a as ih =>
    refine List.nodup_cons.mpr ⟨?_, ih.filter _⟩
    intro hmem
    have := (List.mem_filter.mp hmem).2
    simp at this

/-- C5 (amended): `A - B` builds the result container from the canonical
keys, not from the original elements: whenever both key sets are
constructible (every canonical key deeply hashable), the result holds,
each exactly once and in unspecified order, exactly the canonical keys of
`A`'s elements that do not occur among the canonical keys of `B`'s
elements — so duplicates of `A` collapse and unhashable elements appear
as their tuple keys; `[1,2,3] - [2,3,4]` still yields a container of
`[1]` because numbers are their own keys. -/
theorem c5_difference_is_key_difference (a b : List Elem)
    (ha : (a.map hashify).all deepHashable = true)
    (hb : (b.map hashify).all deepHashable = true) :
    ∃ r, circSub a b = .ok r ∧ r.Nodup ∧
      ∀ k, k ∈ r ↔ (k ∈ a.map hashify ∧ k ∉ b.map hashify) := by
  refine ⟨(pyDedup (a.map hashify)).filter
    (fun k => decide (k ∉ pyDedup (b.map hashify))), ?_, ?_, ?_⟩
  · unfold circSub toSet
    rw [if_pos ha, if_pos hb]
    rfl
  · exact (nodup_pyDedup _).filter _
  · intro k
    rw [List.mem_filter]
    constructor
    · rintro ⟨h1, h2⟩
      refine ⟨(mem_pyDedup _ _).mp h1, ?_⟩
      intro hmem
      exact (of_decide_eq_true h2) ((mem_pyDedup _ _).mpr hmem)
    · rintro ⟨h1, h2⟩
      refine ⟨(mem_pyDedup _ _).mpr h1, decide_eq_true ?_⟩
      intro hmem
      exact h2 ((mem_pyDedup _ _).mp hmem)

/-- C5 counterexample: for `A = [[1,2], [1,2]]` and `B = [9]`, both
elements of `A` have canonical key `(1,2)` and neither key occurs in `B`,
so the claim as stated demands a container holding the two original list
elements; the code instead returns the one-element container holding the
canonical tuple key. -/
theorem c5_difference_counterexample :
    circSub [Elem.list [Elem.num 1, Elem.num 2], Elem.list [Elem.num 1, Elem.num 2]]
        [Elem.num 9] =
      .ok [Elem.tup [Elem.num 1, Elem.num 2]] ∧
    ¬ List.Perm [Elem.tup [Elem.num 1, Elem.num 2]]
        [Elem.list [Elem.num 1, Elem.num 2], Elem.list [Elem.num 1, Elem.num 2]] := by
  constructor
  · rfl
  · intro h
    have := h.length_eq
    simp at this

/-- C5 witness: `[1,2,3] - [2,3,4]` succeeds, and the characterized
result is the container `[1]`. -/
theorem c5_difference_witness :
    (∃ r, circSub [Elem.num 1, Elem.num 2, Elem.num 3]
        [Elem.num 2, Elem.num 3, Elem.num 4] = .ok r ∧ r.Nodup ∧
      ∀ k, k ∈ r ↔
        (k ∈ [Elem.num 1, Elem.num 2, Elem.num 3].map hashify ∧
          k ∉ [Elem.num 2, Elem.num 3, Elem.num 4].map hashify)) ∧
    circSub [Elem.num 1, Elem.num 2, Elem.num 3] [Elem.num 2, Elem.num 3, Elem.num 4] =
      .ok [Elem.num 1] :=
  ⟨c5_difference_is_key_difference _ _ (by decide) (by decide), rfl⟩

/-! ## `circulis.percentile` -/

/-- `pioneer_obtain()`: a fresh generator each iteration, yielding the
first element strictly inside the current `(trough, peak)` range. -/
def pickPioneer (l : List ℚ) (trough peak : ℚ) : Option ℚ :=
  l.find? (fun e => decide (trough < e ∧ e < peak))

/-- Python `max` over the deque (never consulted on an empty container:
`percentile` requires at least two elements). -/
def pyMax : List ℚ → ℚ
  | [] => 0
  | x :: xs => xs.foldl max x

/-- The `value if value else 0.01` guard applied to every accepted result
(a falsy `0` is replaced by `0.01`). -/
def subst0 (x : ℚ) : ℚ := if x = 0 then 1 / 100 else x

/-- `aggregate_surplus`: `sum(1 for elements in self.circulist if pioneer
>= elements)`, the number of elements at most the pivot. -/
def surplusCount (l : List ℚ) (x : ℚ) : ℤ := (l.countP fun e => decide (e ≤ x) : ℕ)

/-- `aggregate_shortage`: the number of elements at least the pivot. -/
def shortageCount (l : List ℚ) (x : ℚ) : ℤ := (l.countP fun e => decide (x ≤ e) : ℕ)

/-- The `while not complete` loop of `percentile`, indexed by fuel (the
loop itself terminates because every narrowing step strictly shrinks the
set of elements inside the candidate range; the fuel bound is discharged
in the theorem).  Each iteration: take the first element in range (none
left: return the max, 0.01 if falsy); accept it when a count matches
exactly or when both counts exceed their requirements; otherwise narrow
`peak` (surplus too high) or `trough` (shortage too high); the remaining
branch is the source's `NotImplementedError`. -/
def percLoop (l : List ℚ) (above below : ℤ) (trough peak : ℚ) :
    ℕ → Except PErr ℚ
  | 0 => .error PErr.fuelExhausted
  | fuel + 1 =>
    match pickPioneer l trough peak with
    | Option.none => .ok (subst0 (pyMax l))
    | some x =>
      if above = surplusCount l x ∨ below = shortageCount l x then .ok (subst0 x)
      else if surplusCount l x > above ∧ shortageCount l x > below then .ok (subst0 x)
      else if surplusCount l x > above then percLoop l above below trough x fuel
      else if shortageCount l x > below then percLoop l above below x peak fuel
      else .error PErr.notImplemented

/-- `circulis.percentile(percentage)`: range check `0 < percentage <
0.99`, length check (`>= 2`), then the search with
`above = ceil(length * percentage) + 1`, `below = length - above`,
starting from the sentinel range `(-100_000_000, 100_000_000)`. -/
def percentile (l : List ℚ) (p : ℚ) : Except PErr ℚ :=
  if ¬(0 < p ∧ p < 99 / 100) then .error PErr.invalidOperation
  else if l.length ≤ 1 then .error PErr.invalidOperation
  else
    let above : ℤ := ⌈(l.length : ℚ) * p⌉ + 1
    let below : ℤ := (l.length : ℤ) - above
    percLoop l above below (-100000000) 100000000 (l.length + 1)

/-- The acceptance condition under which a pivot `x` becomes the result:
one of the two counts matches its requirement exactly, or both exceed
them strictly. -/
def acceptCond (l : List ℚ) (above below : ℤ) (x : ℚ) : Prop :=
  (above = surplusCount l x ∨ below = shortageCount l x) ∨
    (surplusCount l x > above ∧ shortageCount l x > below)

theorem countP_lt_of_witness (l : List α) (p q : α → Bool)
    (hsub : ∀ e ∈ l, p e = true → q e = true) (a : α) (ha : a ∈ l)
    (hqa : q a = true) (hpa : p a = false) :
    l.countP p < l.countP q := by
  induction l with
  | nil => cases ha
  | cons b bs ih =>
    rw [List.countP_cons, List.countP_cons]
    rcases List.mem_cons.mp ha with rfl | hmem
    · have hle : bs.countP p ≤ bs.countP q :=
        List.countP_mono_left (fun e he hp => hsub e (List.mem_cons_of_mem _ he) hp)
      rw [hpa, hqa]
      simp only [Bool.false_eq_true, if_false, if_true]
      omega
    · have hlt : bs.countP p < bs.countP q :=
        ih (fun e he hp => hsub e (List.mem_cons_of_mem _ he) hp) hmem
      have hinc : (if p b = true then 1 else 0) ≤ (if q b = true then 1 else 0) := by
        by_cases hb : p b = true
        · rw [if_pos hb, if_pos (hsub b (List.mem_cons_self _ _) hb)]
        · rw [if_neg hb]
          omega
      omega

theorem surplus_add_shortage (l : List ℚ) (x : ℚ) :
    surplusCount l x + shortageCount l x =
      (l.length : ℤ) + (l.countP fun e => decide (e = x) : ℕ) := by
  unfold surplusCount shortageCount
  have key : ∀ m : List ℚ,
      (m.countP fun e => decide (e ≤ x)) + (m.countP fun e => decide (x ≤ e)) =
        m.length + (m.countP fun e => decide (e = x)) := by
    intro m
    induction m with
    | nil => rfl
    | cons b bs ih =>
      simp only [List.countP_cons, List.length_cons, decide_eq_true_eq]
      rcases lt_trichotomy b x with hb | hb | hb
      · rw [if_pos hb.le, if_neg (not_le.mpr hb), if_neg (ne_of_lt hb)]
        omega
      · subst hb
        simp only [le_refl, eq_self_iff_true, if_true]
        omega
      · rw [if_neg (not_le.mpr hb), if_pos hb.le, if_neg (ne_of_gt hb)]
        omega
  have := key l
  omega

theorem percLoop_ok (l : List ℚ) (above below : ℤ)
    (hsum : above + below = (l.length : ℤ)) :
    ∀ (fuel : ℕ) (trough peak : ℚ),
      (l.countP fun e => decide (trough < e ∧ e < peak)) < fuel →
      ∃ r, percLoop l above below trough peak fuel = .ok r ∧
        ((∃ x ∈ l, acceptCond l above below x ∧ r = subst0 x) ∨
          r = subst0 (pyMax l)) := by
  intro fuel
  induction fuel with
  | zero => intro trough peak h; omega
  | succ fuel ih =>
    intro trough peak hcount
    cases hfind : pickPioneer l trough peak with
    | none =>
      exact ⟨subst0 (pyMax l), by rw [percLoop, hfind], Or.inr rfl⟩
    | some x =>
      have hxmem : x ∈ l := List.mem_of_find?_eq_some hfind
      have hxrange : trough < x ∧ x < peak := by
        have := List.find?_some hfind
        exact of_decide_eq_true this
      by_cases h1 : above = surplusCount l x ∨ below = shortageCount l x
      · refine ⟨subst0 x, ?_, Or.inl ⟨x, hxmem, Or.inl h1, rfl⟩⟩
        rw [percLoop, hfind]
        simp only [if_pos h1]
      · by_cases h2 : surplusCount l x > above ∧ shortageCount l x > below
        · refine ⟨subst0 x, ?_, Or.inl ⟨x, hxmem, Or.inr h2, rfl⟩⟩
          rw [percLoop, hfind]
          simp only [if_neg h1, if_pos h2]
        · by_cases h3 : surplusCount l x > above
          · have hnarrow :
                (l.countP fun e => decide (trough < e ∧ e < x)) <
                  (l.countP fun e => decide (trough < e ∧ e < peak)) := by
              apply countP_lt_of_witness l _ _ ?_ x hxmem
                (decide_eq_true hxrange) ?_
              · intro e _ hp
                have he := of_decide_eq_true hp
                exact decide_eq_true ⟨he.1, he.2.trans hxrange.2⟩
              · rw [decide_eq_false_iff_not]
                rintro ⟨-, hxx⟩
                exact absurd hxx (lt_irrefl x)
            obtain ⟨r, hr, hchar⟩ := ih trough x (by omega)
            refine ⟨r, ?_, hchar⟩
            rw [percLoop, hfind]
            simp only [if_neg h1, if_neg h2, if_pos h3]
            exact hr
          · by_cases h4 : shortageCount l x > below
            · have hnarrow :
                  (l.countP fun e => decide (x < e ∧ e < peak)) <
                    (l.countP fun e => decide (trough < e ∧ e < peak)) := by
                apply countP_lt_of_witness l _ _ ?_ x hxmem
                  (decide_eq_true hxrange) ?_
                · intro e _ hp
                  have he := of_decide_eq_true hp
                  exact decide_eq_true ⟨hxrange.1.trans he.1, he.2⟩
                · rw [decide_eq_false_iff_not]
                  rintro ⟨hxx, -⟩
                  exact absurd hxx (lt_irrefl x)
              obtain ⟨r, hr, hchar⟩ := ih x peak (by omega)
              refine ⟨r, ?_, hchar⟩
              rw [percLoop, hfind]
              simp only [if_neg h1, if_neg h2, if_neg h3, if_pos h4]
              exact hr
            · exfalso
              have hkey := surplus_add_shortage l x
              have hxcount : 0 < (l.countP fun e => decide (e = x)) :=
                List.countP_pos.mpr ⟨x, hxmem, by simp⟩
              rw [not_or] at h1
              omega

/-- C4 (amended): for every container of two or more (numeric) elements
and every `p` with `0 < p < 0.99`, `percentile(p)` terminates without
raising, and its result is either an examined pivot `x` accepted because
the count of elements `≤ x` equals the required above-count, or the count
of elements `≥ x` equals the required below-count, or both counts
strictly exceed their requirements (the source's third acceptance arm,
missing from the original claim) — with an accepted falsy pivot `0`
replaced by `0.01` — or, when no further candidate lies strictly within
the current range, the maximum element (likewise `0.01` when falsy) as a
fallback. -/
theorem c4_percentile_terminates (l : List ℚ) (p : ℚ)
    (hlen : 2 ≤ l.length) (hp : 0 < p ∧ p < 99 / 100) :
    ∃ r, percentile l p = .ok r ∧
      ((∃ x ∈ l,
          acceptCond l (⌈(l.length : ℚ) * p⌉ + 1)
            ((l.length : ℤ) - (⌈(l.length : ℚ) * p⌉ + 1)) x ∧
          r = subst0 x) ∨
        r = subst0 (pyMax l)) := by
  unfold percentile
  rw [if_neg (not_not_intro hp), if_neg (by omega)]
  exact percLoop_ok l _ _ (by ring)
    (l.length + 1) (-100000000) 100000000
    (Nat.lt_succ_of_le (List.countP_le_length _))

/-- C4 counterexample: on `[2, 2, 2, 9]` with `p = 0.2` the pivot `2` is
accepted through the both-counts-exceed arm — `#(≤ 2) = 3 > above = 2`
and `#(≥ 2) = 4 > below = 2`, neither equality holding — and the result
`2` is not the maximum element `9` either, so the original claim's
two-case characterization misses it. -/
theorem c4_percentile_counterexample :
    percentile [2, 2, 2, 9] (1 / 5) = .ok 2 ∧
    surplusCount [2, 2, 2, 9] 2 ≠ ⌈(([2, 2, 2, 9] : List ℚ).length : ℚ) * (1 / 5)⌉ + 1 ∧
    shortageCount [2, 2, 2, 9] 2 ≠
      (([2, 2, 2, 9] : List ℚ).length : ℤ) - (⌈(([2, 2, 2, 9] : List ℚ).length : ℚ) * (1 / 5)⌉ + 1) ∧
    (2 : ℚ) ≠ pyMax [2, 2, 2, 9] := by
  have hceil : ⌈(4 / 5 : ℚ)⌉ = 1 := by
    rw [Int.ceil_eq_iff]
    norm_num
  have hA : (⌈(([2, 2, 2, 9] : List ℚ).length : ℚ) * (1 / 5)⌉ + 1 : ℤ) = 2 := by
    norm_num [hceil]
  have hB : (([2, 2, 2, 9] : List ℚ).length : ℤ) -
      (⌈(([2, 2, 2, 9] : List ℚ).length : ℚ) * (1 / 5)⌉ + 1) = 2 := by
    norm_num [hceil]
  refine ⟨?_, ?_, ?_, by decide⟩
  · unfold percentile
    rw [if_neg (by norm_num), if_neg (by norm_num)]
    show percLoop [2, 2, 2, 9] (⌈(([2, 2, 2, 9] : List ℚ).length : ℚ) * (1 / 5)⌉ + 1)
      ((([2, 2, 2, 9] : List ℚ).length : ℤ) -
        (⌈(([2, 2, 2, 9] : List ℚ).length : ℚ) * (1 / 5)⌉ + 1))
      (-100000000) 100000000 (([2, 2, 2, 9] : List ℚ).length + 1) = .ok 2
    rw [hB, hA]
    rfl
  · rw [hA]
    decide
  · rw [hB]
    decide

/-- C4 witness: `percentile(0.5)` on `[1, 2]` terminates with a result
satisfying the characterization. -/
theorem c4_percentile_witness :
    ∃ r, percentile [1, 2] (1 / 2) = .ok r ∧
      ((∃ x ∈ ([1, 2] : List ℚ),
          acceptCond [1, 2] (⌈(([1, 2] : List ℚ).length : ℚ) * (1 / 2)⌉ + 1)
            ((([1, 2] : List ℚ).length : ℤ) -
              (⌈(([1, 2] : List ℚ).length : ℚ) * (1 / 2)⌉ + 1)) x ∧
          r = subst0 x) ∨
        r = subst0 (pyMax [1, 2])) :=
  c4_percentile_terminates [1, 2] (1 / 2) (by decide) (by constructor <;> norm_num)

end Circ
